import Mathlib

/-
Verification of the terminal-session layer of the AEnvironment repository.

Part 1 models the pipe-based shell session
(builtin-envs/mini-terminal/src/bash_session.py, class MiniBashSession).
Part 2 models the tmux-based session
(builtin-envs/terminalbench/src/tmuxsession.py, class TmuxSession).

Strings are modelled as List Char; Python str.strip() is modelled by
pyStrip below; Python str.rfind is modelled by rfindLast.
-/

namespace AEnv

/-! ### Python string primitives -/

/-- The ASCII whitespace characters recognised by Python str.strip(). -/
def pyWS (c : Char) : Bool :=
  c == ' ' || c == '\t' || c == '\n' || c == '\r' || c == '\x0b' || c == '\x0c'

/-- Python lstrip(): drop leading whitespace. -/
def pyStripLeft (l : List Char) : List Char := l.dropWhile pyWS

/-- Python rstrip(): drop trailing whitespace. -/
def pyStripRight (l : List Char) : List Char := (l.reverse.dropWhile pyWS).reverse

/-- Python strip(): drop whitespace at both ends. -/
def pyStrip (l : List Char) : List Char := pyStripRight (pyStripLeft l)

/-- The trailing whitespace removed by pyStripRight. -/
def wsTail (l : List Char) : List Char := (l.reverse.takeWhile pyWS).reverse

/-! ### rfind: last occurrence of a pattern, as in Python str.rfind -/

/-- Search for the greatest index i ≤ n at which pat occurs in s. -/
def rfindAux (pat s : List Char) : Nat → Option Nat
  | 0 => if pat.isPrefixOf s then some 0 else none
  | n + 1 =>
      if pat.isPrefixOf (s.drop (n + 1)) then some (n + 1) else rfindAux pat s n

/-- Python s.rfind(pat): index of the last occurrence, none when absent. -/
def rfindLast (pat s : List Char) : Option Nat := rfindAux pat s s.length

/-! ### TmuxSession: key preparation and dispatch (send_keys / _prepare_keys) -/

/-- TmuxSession._ENTER_KEYS. -/
def ENTER_KEYS : List String := ["Enter", "C-m", "KPEnter", "C-j", "^M", "^J"]

/-- TmuxSession._TMUX_COMPLETION_COMMAND. -/
def TMUX_COMPLETION_COMMAND : String := "; tmux wait -S done"

/-- The tail_idx loop of _prepare_keys: starting from i, decrement while the
preceding key is an Enter-equivalent. -/
def tailIdx (keys : List String) : Nat → Nat
  | 0 => 0
  | i + 1 => if ENTER_KEYS.contains (keys.getD i "") then tailIdx keys i else i + 1

/-- TmuxSession._prepare_keys: returns the prepared key list and whether the
blocking path is taken. -/
def prepare_keys (keys : List String) (block : Bool) : List String × Bool :=
  if !block || keys.isEmpty || !(ENTER_KEYS.contains (keys.getLastD "")) then
    (keys, false)
  else
    (keys.take (tailIdx keys keys.length) ++ [TMUX_COMPLETION_COMMAND, "Enter"], true)

/-- TmuxSession.send_keys, modelled by the list of `tmux send-keys`
dispatches it performs and whether it waits for the completion token. -/
def send_keys_dispatches (keys : List String) (block : Bool) :
    List (List String) × Bool :=
  let pb := prepare_keys keys block
  if pb.2 then
    let body := pb.1.dropLast.dropLast
    ((if body.isEmpty then [] else [body]) ++ [[TMUX_COMPLETION_COMMAND, "Enter"]],
     true)
  else
    ([pb.1], false)

/-- Modelled from the spec's words for comparison with prepare_keys: "strip
all trailing Enter-equivalents from the key sequence". -/
def spec_strip_trailing_enters (keys : List String) : List String :=
  (keys.reverse.dropWhile (fun s => ENTER_KEYS.contains s)).reverse

/-! ### TmuxSession._wait_tmux_done -/

/-- Message of the TimeoutError raised by _wait_tmux_done. -/
def waitTimeoutMsg (t : Nat) : String :=
  "tmux wait done timeout (" ++ toString t ++ "s)"

inductive WaitOutcome where
  | signaled : WaitOutcome
  | timedOut : String → WaitOutcome
  deriving DecidableEq

/-- TmuxSession._wait_tmux_done over a trace of poll iterations. Each pair
holds the clock reading at the loop head and the output that the
`tmux wait done` exec of that iteration would produce. `none` models a
trace too short to decide the call. -/
def wait_tmux_done (t : Nat) : List (Nat × List Char) → Option WaitOutcome
  | [] => none
  | (e, out) :: rest =>
      if e < t then
        if pyStrip out = [] then some WaitOutcome.signaled
        else wait_tmux_done t rest
      else some (WaitOutcome.timedOut (waitTimeoutMsg t))

/-! ### TmuxSession incremental output (_find_new_content / get_incremental_output) -/

/-- TmuxSession._find_new_content: diff a new full-scrollback capture against
the stored previous snapshot. -/
def find_new_content (prevBuf : Option (List Char)) (current : List Char) :
    Option (List Char) :=
  match prevBuf with
  | none => none
  | some prev =>
      let ps := pyStrip prev
      match rfindLast ps current with
      | some i => some (current.drop (i + ps.length))
      | none => none

/-- Modelled from the spec's words for comparison with find_new_content: the
same diff but stripping only TRAILING whitespace from the previous
snapshot, as the specification text describes. -/
def rstrip_find_new_content (prevBuf : Option (List Char)) (current : List Char) :
    Option (List Char) :=
  match prevBuf with
  | none => none
  | some prev =>
      let ps := pyStripRight prev
      match rfindLast ps current with
      | some i => some (current.drop (i + ps.length))
      | none => none

inductive TermOutput where
  | currentScreen : List Char → TermOutput
  | newOutput : List Char → TermOutput
  deriving DecidableEq

/-- TmuxSession.get_incremental_output: takes the stored previous buffer, the
fresh full-scrollback capture and the visible screen; returns the labelled
result and the new stored buffer. -/
def get_incremental_output (prevBuf : Option (List Char))
    (current visibleScreen : List Char) : TermOutput × Option (List Char) :=
  match prevBuf with
  | none => (TermOutput.currentScreen visibleScreen, some current)
  | some prev =>
      match find_new_content (some prev) current with
      | some c =>
          if !c.isEmpty && !(pyStrip c).isEmpty then
            (TermOutput.newOutput c, some current)
          else
            (TermOutput.currentScreen visibleScreen, some current)
      | none => (TermOutput.currentScreen visibleScreen, some current)

/-! ### TmuxSession._find_container_id -/

/-- One line of `nerdctl ps --format json` output, after the per-line
try/except json.loads: either malformed (skipped) or a parsed record with
its Names and ID fields. -/
inductive PsRec where
  | malformed : PsRec
  | parsed : String → String → PsRec

/-- The per-namespace record scan: first parsed record whose Names field
equals the requested name yields its ID; malformed records are skipped. -/
def scanRecs (nm : String) : List PsRec → Option String
  | [] => none
  | PsRec.malformed :: rest => scanRecs nm rest
  | PsRec.parsed n i :: rest => if n == nm then some i else scanRecs nm rest

/-- One retry round: iterate the namespaces in order; a namespace whose
listing command failed (returncode ≠ 0, modelled none) is skipped. -/
def scanRound (nm : String) (listing : String → Option (List PsRec)) :
    List String → Option (String × String)
  | [] => none
  | ns :: rest =>
      match listing ns with
      | none => scanRound nm listing rest
      | some recs =>
          match scanRecs nm recs with
          | some i => some (i, ns)
          | none => scanRound nm listing rest

/-- A single quote character, for rendering Python repr strings. -/
def sq : String := String.singleton (Char.ofNat 39)

/-- Python repr of a list of strings, as interpolated into the error. -/
def pyStrListRepr (nss : List String) : String :=
  "[" ++ String.intercalate ", " (nss.map (fun s => sq ++ s ++ sq)) ++ "]"

/-- TmuxSession._find_container_id max_retries. -/
def MAX_RETRIES : Nat := 10

/-- The RuntimeError message raised when all retries are exhausted. -/
def containerErrMsg (nm : String) (nss : List String) : String :=
  "no container matched " ++ sq ++ nm ++ sq ++ " in namespaces "
    ++ pyStrListRepr nss ++ " after " ++ toString MAX_RETRIES ++ " attempts"

/-- The retry loop of _find_container_id; `listing a ns` gives the parsed
`nerdctl -n ns ps` output observed on attempt a. -/
def fci_loop (nss : List String) (nm : String)
    (listing : Nat → String → Option (List PsRec)) :
    Nat → Nat → Except String (String × String)
  | _, 0 => Except.error (containerErrMsg nm nss)
  | attempt, fuel + 1 =>
      match scanRound nm (listing attempt) nss with
      | some r => Except.ok r
      | none => fci_loop nss nm listing (attempt + 1) fuel

/-- TmuxSession._find_container_id. -/
def find_container_id (nss : List String) (nm : String)
    (listing : Nat → String → Option (List PsRec)) :
    Except String (String × String) :=
  fci_loop nss nm listing 0 MAX_RETRIES

/-! ### TmuxSession construction tool check (_require_in_container) -/

/-- Result of Container.exec_run, mirroring the ExecResult namedtuple. -/
structure ExecResult where
  exit_code : Int
  output : String
  deriving DecidableEq

/-- TmuxSession._require_in_container: runs `which prog` in the container and
returns. The source discards the ExecResult entirely — no exit-code check,
no exception — so the possible-error result is always none. -/
def require_in_container (whichResult : ExecResult) : Option String :=
  let _r := whichResult
  none

/-- The tool-verification step of TmuxSession.__init__: require tmux, and
asciinema unless recording is disabled. Returns the construction error it
raises, if any. -/
def init_tool_check (tmuxWhich asciinemaWhich : ExecResult)
    (disableRecording : Bool) : Option String :=
  match require_in_container tmuxWhich with
  | some e => some e
  | none =>
      if !disableRecording then require_in_container asciinemaWhich else none

/-! ### MiniBashSession.send_stdin

The call is modelled against a schedule of observable events. Each outer
iteration (one "round") holds the queue events its inner loop processes and
the outcome of the psutil child enumeration performed at its poll point.
A `QEvent.arrive` models the reader thread enqueuing a line; a
`QEvent.get e` models one `stdout_queue.get(timeout=0.1)` together with the
clock reading `e` (time since the command was written) at the check that
follows it. -/

inductive QEvent where
  | arrive : List Char → QEvent
  | get : Nat → QEvent

/-- Outcome of the psutil enumeration at a poll point: a child count, a
psutil.NoSuchProcess, or any other exception. -/
inductive PollEvent where
  | childCount : Nat → PollEvent
  | noSuchProcess : PollEvent
  | otherError : PollEvent

/-- Result of one inner loop: a timeout return, a break to the poll point
(carrying queue and accumulated lines), or an exhausted event list. -/
inductive RoundOut where
  | timeout : List (List Char) → List (List Char) → RoundOut
  | toPoll : List (List Char) → List (List Char) → RoundOut
  | incomplete : RoundOut

/-- Result of the whole send_stdin call: a returned (output, done) pair, or
an exception propagating out of the child enumeration. -/
inductive SendResult where
  | ok : List Char → Bool → SendResult
  | raised : SendResult
  deriving DecidableEq

/-- "".join(output_lines). -/
def joinLines (ls : List (List Char)) : List Char := ls.flatten

/-- The inner loop of send_stdin: drain queue lines until the 0.1s get times
out (break to the poll point) or the overall timeout t is exceeded. -/
def runRoundQ (t : Nat) (q acc : List (List Char)) : List QEvent → RoundOut
  | [] => RoundOut.incomplete
  | QEvent.arrive l :: rest => runRoundQ t (q ++ [l]) acc rest
  | QEvent.get e :: rest =>
      match q with
      | l :: q2 =>
          if t < e then RoundOut.timeout q2 (acc ++ [l])
          else runRoundQ t q2 (acc ++ [l]) rest
      | [] =>
          if t < e then RoundOut.timeout [] acc
          else RoundOut.toPoll [] acc

/-- The outer loop of send_stdin: alternate inner loops and poll points. -/
def send_loop (t : Nat) (q acc : List (List Char)) :
    List (List QEvent × PollEvent) → Option SendResult
  | [] => none
  | (qs, p) :: rounds =>
      match runRoundQ t q acc qs with
      | RoundOut.timeout _ acc2 => some (SendResult.ok (joinLines acc2) false)
      | RoundOut.incomplete => none
      | RoundOut.toPoll q2 acc2 =>
          match p with
          | PollEvent.childCount 0 => some (SendResult.ok (joinLines acc2) true)
          | PollEvent.noSuchProcess => some (SendResult.ok (joinLines acc2) true)
          | PollEvent.otherError => some SendResult.raised
          | PollEvent.childCount (_ + 1) => send_loop t q2 acc2 rounds

/-- The stale-output drain at the top of send_stdin: get_nowait until the
queue is empty; returns the queue left behind. -/
def drainLoop : List (List Char) → List (List Char)
  | [] => []
  | _ :: rest => drainLoop rest

/-- MiniBashSession.send_stdin: drain the stale queue, write the command,
then run the collection loop against the event schedule. -/
def send_stdin (staleQ : List (List Char)) (t : Nat)
    (sched : List (List QEvent × PollEvent)) : Option SendResult :=
  send_loop t (drainLoop staleQ) [] sched

/-- The lines enqueued by the reader thread during one round. -/
def roundArrivals (qs : List QEvent) : List (List Char) :=
  qs.filterMap (fun e => match e with
    | QEvent.arrive l => some l
    | QEvent.get _ => none)

/-- All lines enqueued during the call. -/
def arrivalsOf (sched : List (List QEvent × PollEvent)) : List (List Char) :=
  sched.flatMap (fun r => roundArrivals r.1)


/-! ## Helper lemmas -/

theorem pyStripRight_append_wsTail (l : List Char) :
    l = pyStripRight l ++ wsTail l := by
  conv_lhs => rw [← l.reverse_reverse, ← List.takeWhile_append_dropWhile (p := pyWS) (l := l.reverse)]
  rw [List.reverse_append]
  rfl

theorem mem_wsTail_ws {l : List Char} {c : Char} (h : c ∈ wsTail l) : pyWS c = true := by
  unfold wsTail at h
  rw [List.mem_reverse] at h
  exact List.mem_takeWhile_imp h

theorem pyStripLeft_eq_drop (l : List Char) :
    pyStripLeft l = l.drop (l.takeWhile pyWS).length := by
  induction l with
  | nil => rfl
  | cons a l ih =>
    by_cases h : pyWS a
    · simp [pyStripLeft, List.dropWhile_cons, List.takeWhile_cons, h] at ih ⊢
      exact ih
    · simp [pyStripLeft, List.dropWhile_cons, List.takeWhile_cons, h]

theorem pyStrip_of_all_ws {l : List Char} (h : ∀ c ∈ l, pyWS c = true) :
    pyStrip l = [] := by
  have h1 : pyStripLeft l = [] := by
    unfold pyStripLeft
    rw [List.dropWhile_eq_nil_iff]
    exact h
  simp [pyStrip, h1, pyStripRight]

theorem rfindAux_some {pat s : List Char} :
    ∀ {n i : Nat}, rfindAux pat s n = some i →
      pat.isPrefixOf (s.drop i) = true ∧ i ≤ n := by
  intro n
  induction n with
  | zero =>
    intro i h
    unfold rfindAux at h
    by_cases hp : pat.isPrefixOf s
    · simp [hp] at h
      subst h
      exact ⟨by simpa using hp, Nat.le_refl 0⟩
    · simp [hp] at h
  | succ n ih =>
    intro i h
    unfold rfindAux at h
    by_cases hp : pat.isPrefixOf (s.drop (n + 1))
    · simp [hp] at h
      subst h
      exact ⟨hp, Nat.le_refl _⟩
    · simp [hp] at h
      obtain ⟨h1, h2⟩ := ih h
      exact ⟨h1, Nat.le_succ_of_le h2⟩

theorem rfindAux_of_match {pat s : List Char} :
    ∀ {n m : Nat}, m ≤ n → pat.isPrefixOf (s.drop m) = true →
      ∃ i, rfindAux pat s n = some i ∧ m ≤ i := by
  intro n
  induction n with
  | zero =>
    intro m hm hp
    interval_cases m
    exact ⟨0, by simp [rfindAux, List.drop_zero] at hp ⊢; simp [hp], Nat.le_refl 0⟩
  | succ n ih =>
    intro m hm hp
    by_cases htop : pat.isPrefixOf (s.drop (n + 1))
    · exact ⟨n + 1, by simp [rfindAux, htop], hm⟩
    · have hmn : m ≤ n := by
        rcases Nat.lt_or_ge m (n + 1) with h | h
        · exact Nat.lt_succ_iff.mp h
        · exact absurd hp (by have : m = n + 1 := Nat.le_antisymm hm h; rw [this]; simp [htop])
      obtain ⟨i, hi, hmi⟩ := ih hmn hp
      exact ⟨i, by simp [rfindAux, htop, hi], hmi⟩

theorem rfindAux_max {pat s : List Char} :
    ∀ {n i : Nat}, rfindAux pat s n = some i →
      ∀ j, j ≤ n → pat.isPrefixOf (s.drop j) = true → j ≤ i := by
  intro n
  induction n with
  | zero =>
    intro i h j hj _
    interval_cases j
    exact Nat.zero_le i
  | succ n ih =>
    intro i h j hj hjp
    unfold rfindAux at h
    by_cases hp : pat.isPrefixOf (s.drop (n + 1))
    · simp [hp] at h
      subst h
      exact hj
    · simp [hp] at h
      rcases Nat.lt_or_ge j (n + 1) with hlt | hge
      · exact ih h j (Nat.lt_succ_iff.mp hlt) hjp
      · exact absurd hjp (by have : j = n + 1 := Nat.le_antisymm hj hge; rw [this]; simp [hp])

theorem rfindAux_none {pat s : List Char} {n : Nat}
    (h : rfindAux pat s n = none) :
    ∀ j, j ≤ n → pat.isPrefixOf (s.drop j) = false := by
  intro j hj
  by_contra hc
  have hp : pat.isPrefixOf (s.drop j) = true := by
    cases hb : pat.isPrefixOf (s.drop j)
    · exact absurd hb hc
    · rfl
  obtain ⟨i, hi, _⟩ := rfindAux_of_match hj hp
  rw [h] at hi
  exact Option.noConfusion hi

theorem isPrefixOf_append_self (p r : List Char) :
    p.isPrefixOf (p ++ r) = true := by
  induction p with
  | nil => simp [List.isPrefixOf]
  | cons a p ih => simp [List.isPrefixOf, ih]


theorem drop_append_len {α : Type} (p r : List α) (d : Nat) :
    (p ++ r).drop (p.length + d) = r.drop d := by
  induction p with
  | nil => simp
  | cons a p ih => simp [Nat.succ_add, ih]

theorem roundArrivals_arrive (l : List Char) (rest : List QEvent) :
    roundArrivals (QEvent.arrive l :: rest) = l :: roundArrivals rest := by
  simp [roundArrivals]

theorem roundArrivals_get (e : Nat) (rest : List QEvent) :
    roundArrivals (QEvent.get e :: rest) = roundArrivals rest := by
  simp [roundArrivals]

/-- Output-provenance invariant of one inner loop: the lines appended to the
accumulator, followed by the queue left behind, are the starting queue
followed by some subsequence of the lines that arrived during the loop. -/
theorem runRoundQ_spec :
    ∀ (qs : List QEvent) (t : Nat) (q acc q2 acc2 : List (List Char)),
      (runRoundQ t q acc qs = RoundOut.timeout q2 acc2 ∨
        runRoundQ t q acc qs = RoundOut.toPoll q2 acc2) →
      ∃ ls A2, acc2 = acc ++ ls ∧ ls ++ q2 = q ++ A2 ∧
        A2.Sublist (roundArrivals qs) := by
  intro qs
  induction qs with
  | nil =>
    intro t q acc q2 acc2 h
    rcases h with h | h <;> exact absurd h (by simp [runRoundQ])
  | cons ev rest ih =>
    intro t q acc q2 acc2 h
    cases ev with
    | arrive l =>
      have h2 : runRoundQ t (q ++ [l]) acc rest = RoundOut.timeout q2 acc2 ∨
          runRoundQ t (q ++ [l]) acc rest = RoundOut.toPoll q2 acc2 := by
        simpa [runRoundQ] using h
      obtain ⟨ls, A2, hacc, hq, hsub⟩ := ih t (q ++ [l]) acc q2 acc2 h2
      refine ⟨ls, l :: A2, hacc, ?_, ?_⟩
      · rw [hq, List.append_assoc]
        rfl
      · rw [roundArrivals_arrive]
        exact hsub.cons₂ l
    | get e =>
      cases q with
      | cons l q3 =>
        by_cases he : t < e
        · have h2 : RoundOut.timeout q3 (acc ++ [l]) = RoundOut.timeout q2 acc2 ∨
              RoundOut.timeout q3 (acc ++ [l]) = RoundOut.toPoll q2 acc2 := by
            simpa [runRoundQ, he] using h
          rcases h2 with h2 | h2
          · injection h2 with h3 h4
            exact ⟨[l], [], h4.symm, by simp [h3], List.nil_sublist _⟩
          · exact absurd h2 (by simp)
        · have h2 : runRoundQ t q3 (acc ++ [l]) rest = RoundOut.timeout q2 acc2 ∨
              runRoundQ t q3 (acc ++ [l]) rest = RoundOut.toPoll q2 acc2 := by
            simpa [runRoundQ, he] using h
          obtain ⟨ls, A2, hacc, hq, hsub⟩ := ih t q3 (acc ++ [l]) q2 acc2 h2
          refine ⟨l :: ls, A2, by simpa using hacc, ?_, ?_⟩
          · simp only [List.cons_append, hq]
          · rw [roundArrivals_get]
            exact hsub
      | nil =>
        by_cases he : t < e
        · have h2 : RoundOut.timeout [] acc = RoundOut.timeout q2 acc2 ∨
              RoundOut.timeout [] acc = RoundOut.toPoll q2 acc2 := by
            simpa [runRoundQ, he] using h
          rcases h2 with h2 | h2
          · injection h2 with h3 h4
            exact ⟨[], [], by simp [h4], by simp [h3], List.nil_sublist _⟩
          · exact absurd h2 (by simp)
        · have h2 : RoundOut.toPoll [] acc = RoundOut.timeout q2 acc2 ∨
              RoundOut.toPoll [] acc = RoundOut.toPoll q2 acc2 := by
            simpa [runRoundQ, he] using h
          rcases h2 with h2 | h2
          · exact absurd h2 (by simp)
          · injection h2 with h3 h4
            exact ⟨[], [], by simp [h4], by simp [h3], List.nil_sublist _⟩

/-- Output provenance of the full collection loop. -/
theorem send_loop_provenance :
    ∀ (rounds : List (List QEvent × PollEvent)) (t : Nat)
      (q acc : List (List Char)) (out : List Char) (d : Bool),
      send_loop t q acc rounds = some (SendResult.ok out d) →
      ∃ tl, out = joinLines (acc ++ tl) ∧ tl.Sublist (q ++ arrivalsOf rounds) := by
  intro rounds
  induction rounds with
  | nil =>
    intro t q acc out d h
    exact absurd h (by simp [send_loop])
  | cons rd rounds ih =>
    obtain ⟨qs, p⟩ := rd
    intro t q acc out d h
    have harr : arrivalsOf ((qs, p) :: rounds)
        = roundArrivals qs ++ arrivalsOf rounds := by
      simp [arrivalsOf]
    cases hr : runRoundQ t q acc qs with
    | incomplete =>
      rw [send_loop, hr] at h
      exact absurd h (by simp)
    | timeout q2 acc2 =>
      rw [send_loop, hr] at h
      have hout : out = joinLines acc2 := by
        injection h with h2
        injection h2 with h3 h4
        exact h3.symm
      obtain ⟨ls, A2, hacc, hq, hsub⟩ :=
        runRoundQ_spec qs t q acc q2 acc2 (Or.inl hr)
      refine ⟨ls, by rw [hout, hacc], ?_⟩
      have h1 : ls.Sublist (q ++ A2) := hq ▸ List.sublist_append_left ls q2
      have h2 : (q ++ A2).Sublist (q ++ arrivalsOf ((qs, p) :: rounds)) := by
        rw [harr]
        exact (List.Sublist.refl q).append
          (hsub.trans (List.sublist_append_left _ _))
      exact h1.trans h2
    | toPoll q2 acc2 =>
      obtain ⟨ls, A2, hacc, hq, hsub⟩ :=
        runRoundQ_spec qs t q acc q2 acc2 (Or.inr hr)
      have hls : ls.Sublist (q ++ arrivalsOf ((qs, p) :: rounds)) := by
        have h1 : ls.Sublist (q ++ A2) := hq ▸ List.sublist_append_left ls q2
        have h2 : (q ++ A2).Sublist (q ++ arrivalsOf ((qs, p) :: rounds)) := by
          rw [harr]
          exact (List.Sublist.refl q).append
            (hsub.trans (List.sublist_append_left _ _))
        exact h1.trans h2
      cases p with
      | childCount n =>
        cases n with
        | zero =>
          rw [send_loop, hr] at h
          have hout : out = joinLines acc2 := by
            injection h with h2
            injection h2 with h3 h4
            exact h3.symm
          exact ⟨ls, by rw [hout, hacc], hls⟩
        | succ n =>
          rw [send_loop, hr] at h
          obtain ⟨tl2, hout, hsub2⟩ := ih t q2 acc2 out d h
          refine ⟨ls ++ tl2, by rw [hout, hacc, List.append_assoc], ?_⟩
          have h1 : (ls ++ tl2).Sublist (ls ++ (q2 ++ arrivalsOf rounds)) :=
            (List.Sublist.refl ls).append hsub2
          have h2 : ls ++ (q2 ++ arrivalsOf rounds)
              = (q ++ A2) ++ arrivalsOf rounds := by
            rw [← List.append_assoc, hq]
          have h3 : ((q ++ A2) ++ arrivalsOf rounds).Sublist
              ((q ++ roundArrivals qs) ++ arrivalsOf rounds) :=
            ((List.Sublist.refl q).append hsub).append (List.Sublist.refl _)
          have h4 : (q ++ roundArrivals qs) ++ arrivalsOf rounds
              = q ++ arrivalsOf ((qs, PollEvent.childCount (n + 1)) :: rounds) := by
            rw [harr, List.append_assoc]
          exact h4 ▸ ((h2 ▸ h1).trans h3)
      | noSuchProcess =>
        rw [send_loop, hr] at h
        have hout : out = joinLines acc2 := by
          injection h with h2
          injection h2 with h3 h4
          exact h3.symm
        exact ⟨ls, by rw [hout, hacc], hls⟩
      | otherError =>
        rw [send_loop, hr] at h
        exact absurd h (by simp)

/-! ## Claim theorems -/

/-- C10: every get_incremental_output call unconditionally replaces the
stored previous snapshot with the freshly captured full-scrollback
contents, on both the new-output and the current-screen branches. -/
theorem c10_previous_buffer_always_replaced (prevBuf : Option (List Char))
    (current visibleScreen : List Char) :
    (get_incremental_output prevBuf current visibleScreen).2 = some current := by
  cases prevBuf with
  | none => rfl
  | some prev =>
    cases h : find_new_content (some prev) current with
    | none => simp [get_incremental_output, h]
    | some c =>
      simp only [get_incremental_output, h]
      split <;> rfl

/-- C1: when the inner loop of send_stdin breaks to a poll point, a child
enumeration that finds zero children returns (collected_output, true); an
enumeration failing with psutil.NoSuchProcess also returns
(collected_output, true); any other enumeration error propagates. -/
theorem c1_send_stdin_completion_poll (t : Nat) (q acc : List (List Char))
    (qs : List QEvent) (rounds : List (List QEvent × PollEvent))
    (q2 acc2 : List (List Char))
    (h : runRoundQ t q acc qs = RoundOut.toPoll q2 acc2) :
    send_loop t q acc ((qs, PollEvent.childCount 0) :: rounds)
        = some (SendResult.ok (joinLines acc2) true)
    ∧ send_loop t q acc ((qs, PollEvent.noSuchProcess) :: rounds)
        = some (SendResult.ok (joinLines acc2) true)
    ∧ send_loop t q acc ((qs, PollEvent.otherError) :: rounds)
        = some SendResult.raised := by
  refine ⟨?_, ?_, ?_⟩ <;> simp [send_loop, h]

theorem c1_witness :
    send_loop 5 [] [] [([QEvent.arrive ['h'], QEvent.get 0, QEvent.get 0],
        PollEvent.childCount 0)] = some (SendResult.ok (joinLines [['h']]) true)
    ∧ send_loop 5 [] [] [([QEvent.arrive ['h'], QEvent.get 0, QEvent.get 0],
        PollEvent.noSuchProcess)] = some (SendResult.ok (joinLines [['h']]) true)
    ∧ send_loop 5 [] [] [([QEvent.arrive ['h'], QEvent.get 0, QEvent.get 0],
        PollEvent.otherError)] = some SendResult.raised :=
  c1_send_stdin_completion_poll 5 [] []
    [QEvent.arrive ['h'], QEvent.get 0, QEvent.get 0] [] [] [['h']] (by rfl)

/-- C2: whenever a check inside the collection loop observes elapsed time
exceeding the timeout, the call returns (collected_output, false) — in both
the just-read-a-line branch and the queue-empty branch — regardless of the
child-process state, and the collected output extends everything
accumulated so far (partial output is never discarded). -/
theorem c2_send_stdin_timeout (t e : Nat) (q acc : List (List Char))
    (rest : List QEvent) (p : PollEvent)
    (rounds : List (List QEvent × PollEvent)) (h : t < e) :
    (∀ l q3, q = l :: q3 →
        send_loop t q acc ((QEvent.get e :: rest, p) :: rounds)
          = some (SendResult.ok (joinLines (acc ++ [l])) false))
    ∧ (q = [] →
        send_loop t q acc ((QEvent.get e :: rest, p) :: rounds)
          = some (SendResult.ok (joinLines acc) false))
    ∧ (∀ qs q2 acc2, runRoundQ t q acc qs = RoundOut.timeout q2 acc2 →
        send_loop t q acc ((qs, p) :: rounds)
          = some (SendResult.ok (joinLines acc2) false)
        ∧ ∃ ls, acc2 = acc ++ ls) := by
  refine ⟨?_, ?_, ?_⟩
  · intro l q3 hq
    subst hq
    have hr : runRoundQ t (l :: q3) acc (QEvent.get e :: rest)
        = RoundOut.timeout q3 (acc ++ [l]) := by
      simp [runRoundQ, h]
    simp [send_loop, hr]
  · intro hq
    subst hq
    have hr : runRoundQ t [] acc (QEvent.get e :: rest)
        = RoundOut.timeout [] acc := by
      simp [runRoundQ, h]
    simp [send_loop, hr]
  · intro qs q2 acc2 hr
    refine ⟨by simp [send_loop, hr], ?_⟩
    obtain ⟨ls, A2, hacc, _, _⟩ := runRoundQ_spec qs t q acc q2 acc2 (Or.inl hr)
    exact ⟨ls, hacc⟩

theorem c2_witness :
    send_loop 1 [['x']] [] [([QEvent.get 2], PollEvent.childCount 7)]
      = some (SendResult.ok (joinLines ([] ++ [['x']])) false)
    ∧ send_loop 1 [] [] [([QEvent.get 2], PollEvent.noSuchProcess)]
      = some (SendResult.ok (joinLines []) false) := by
  refine ⟨?_, ?_⟩
  · exact (c2_send_stdin_timeout 1 2 [['x']] [] []
      (PollEvent.childCount 7) [] (by decide)).1 ['x'] [] rfl
  · exact (c2_send_stdin_timeout 1 2 [] [] []
      PollEvent.noSuchProcess [] (by decide)).2.1 rfl

/-- C9: send_stdin drains the whole stale queue before writing the command
(the drain leaves an empty queue), so its result is independent of
whatever output previous calls left queued, and every line of the
returned output arrived during this call. -/
theorem c9_drain_and_provenance (staleQ : List (List Char)) (t : Nat)
    (sched : List (List QEvent × PollEvent)) :
    drainLoop staleQ = []
    ∧ send_stdin staleQ t sched = send_stdin [] t sched
    ∧ (∀ out d, send_stdin staleQ t sched = some (SendResult.ok out d) →
        ∃ tl, out = joinLines tl ∧ tl.Sublist (arrivalsOf sched)) := by
  have hd : ∀ q : List (List Char), drainLoop q = [] := by
    intro q
    induction q with
    | nil => rfl
    | cons a q ih => exact ih
  refine ⟨hd staleQ, by simp [send_stdin, hd], ?_⟩
  intro out d h
  rw [send_stdin, hd] at h
  obtain ⟨tl, hout, hsub⟩ := send_loop_provenance sched t [] [] out d h
  exact ⟨tl, by simpa using hout, by simpa using hsub⟩

theorem c9_witness :
    drainLoop [['z']] = []
    ∧ send_stdin [['z']] 5 [([QEvent.arrive ['h'], QEvent.get 0, QEvent.get 0],
        PollEvent.childCount 0)]
      = send_stdin [] 5 [([QEvent.arrive ['h'], QEvent.get 0, QEvent.get 0],
        PollEvent.childCount 0)]
    ∧ (∃ tl, ['h'] = joinLines tl
        ∧ tl.Sublist (arrivalsOf [([QEvent.arrive ['h'], QEvent.get 0,
            QEvent.get 0], PollEvent.childCount 0)])) := by
  have h := c9_drain_and_provenance [['z']] 5
    [([QEvent.arrive ['h'], QEvent.get 0, QEvent.get 0], PollEvent.childCount 0)]
  exact ⟨h.1, h.2.1, h.2.2 ['h'] true (by rfl)⟩

/-- C4: _wait_tmux_done polls the wait primitive until it signals (a blank
output) or the timeout elapses; if no examined poll signals and the clock
reaches the timeout, it raises a TimeoutError whose message names the
timeout duration, rather than returning silently. -/
theorem c4_wait_tmux_done (t : Nat) (polls : List (Nat × List Char)) :
    ((∀ pr ∈ polls, pr.1 < t → pyStrip pr.2 ≠ []) → (∃ pr ∈ polls, t ≤ pr.1) →
        wait_tmux_done t polls
          = some (WaitOutcome.timedOut (waitTimeoutMsg t)))
    ∧ (∀ msg, wait_tmux_done t polls = some (WaitOutcome.timedOut msg) →
        msg = waitTimeoutMsg t)
    ∧ (∀ e out rest, polls = (e, out) :: rest → e < t → pyStrip out = [] →
        wait_tmux_done t polls = some WaitOutcome.signaled) := by
  refine ⟨?_, ?_, ?_⟩
  · induction polls with
    | nil =>
      intro _ hex
      obtain ⟨pr, hpr, _⟩ := hex
      exact absurd hpr (List.not_mem_nil pr)
    | cons hd rest ih =>
      obtain ⟨e, out⟩ := hd
      intro hall hex
      by_cases he : e < t
      · have hne : pyStrip out ≠ [] := hall (e, out) (List.mem_cons_self _ _) he
        have hrec : wait_tmux_done t ((e, out) :: rest) = wait_tmux_done t rest := by
          simp [wait_tmux_done, he, hne]
        rw [hrec]
        refine ih (fun pr hpr hlt => hall pr (List.mem_cons_of_mem _ hpr) hlt) ?_
        obtain ⟨pr, hpr, hge⟩ := hex
        rcases List.mem_cons.mp hpr with heq | hmem
        · exact absurd hge (by rw [heq]; exact Nat.not_le_of_lt he)
        · exact ⟨pr, hmem, hge⟩
      · simp [wait_tmux_done, he]
  · induction polls with
    | nil =>
      intro msg h
      exact absurd h (by simp [wait_tmux_done])
    | cons hd rest ih =>
      obtain ⟨e, out⟩ := hd
      intro msg h
      by_cases he : e < t
      · by_cases hs : pyStrip out = []
        · rw [wait_tmux_done, if_pos he, if_pos hs] at h
          exact absurd h (by simp)
        · rw [wait_tmux_done, if_pos he, if_neg hs] at h
          exact ih msg h
      · rw [wait_tmux_done, if_neg he] at h
        injection h with h2
        injection h2 with h3
        exact h3.symm
  · intro e out rest hp he hs
    rw [hp, wait_tmux_done, if_pos he, if_pos hs]

theorem c4_witness :
    wait_tmux_done 1 [(0, ['x']), (1, [])]
      = some (WaitOutcome.timedOut (waitTimeoutMsg 1))
    ∧ waitTimeoutMsg 1 = "tmux wait done timeout (1s)" := by
  refine ⟨?_, rfl⟩
  exact (c4_wait_tmux_done 1 [(0, ['x']), (1, [])]).1 (by decide) (by decide)

/-- C7: _find_container_id runs exactly MAX_RETRIES = 10 rounds; in each
round it scans the namespaces in order, skipping malformed records and
failed listings, and returns the first record whose Names field equals the
requested name together with its namespace; if every round misses, it
fails with the error naming the search criteria and the attempt count. -/
theorem c7_find_container_id (nss : List String) (nm : String)
    (listing : Nat → String → Option (List PsRec)) :
    ((∀ j, j < MAX_RETRIES → scanRound nm (listing j) nss = none) →
        find_container_id nss nm listing
          = Except.error (containerErrMsg nm nss))
    ∧ (∀ k r, k < MAX_RETRIES →
        (∀ j, j < k → scanRound nm (listing j) nss = none) →
        scanRound nm (listing k) nss = some r →
        find_container_id nss nm listing = Except.ok r)
    ∧ (∀ recs, scanRecs nm (PsRec.malformed :: recs) = scanRecs nm recs)
    ∧ (∀ n i recs, scanRecs nm (PsRec.parsed n i :: recs)
        = if n == nm then some i else scanRecs nm recs)
    ∧ (∀ (lst : String → Option (List PsRec)) ns rest, lst ns = none →
        scanRound nm lst (ns :: rest) = scanRound nm lst rest)
    ∧ (∀ (lst : String → Option (List PsRec)) ns rest recs i,
        lst ns = some recs → scanRecs nm recs = some i →
        scanRound nm lst (ns :: rest) = some (i, ns))
    ∧ (∀ (lst : String → Option (List PsRec)) ns rest recs,
        lst ns = some recs → scanRecs nm recs = none →
        scanRound nm lst (ns :: rest) = scanRound nm lst rest) := by
  have herr : ∀ (fuel a : Nat),
      (∀ j, j < fuel → scanRound nm (listing (a + j)) nss = none) →
      fci_loop nss nm listing a fuel = Except.error (containerErrMsg nm nss) := by
    intro fuel
    induction fuel with
    | zero => intro a _; rfl
    | succ fuel ih =>
      intro a h
      have h0 : scanRound nm (listing a) nss = none := by
        have := h 0 (Nat.succ_pos fuel)
        simpa using this
      rw [fci_loop, h0]
      refine ih (a + 1) (fun j hj => ?_)
      have h2 := h (j + 1) (Nat.succ_lt_succ hj)
      rw [show a + 1 + j = a + (j + 1) by omega]
      exact h2
  have hok : ∀ (fuel a k : Nat) (r : String × String), k < fuel →
      (∀ j, j < k → scanRound nm (listing (a + j)) nss = none) →
      scanRound nm (listing (a + k)) nss = some r →
      fci_loop nss nm listing a fuel = Except.ok r := by
    intro fuel
    induction fuel with
    | zero => intro a k r hk _ _; exact absurd hk (Nat.not_lt_zero k)
    | succ fuel ih =>
      intro a k r hk hnone hsome
      cases k with
      | zero =>
        have h0 : scanRound nm (listing a) nss = some r := by simpa using hsome
        rw [fci_loop, h0]
      | succ k =>
        have h0 : scanRound nm (listing a) nss = none := by
          have := hnone 0 (Nat.succ_pos k)
          simpa using this
        rw [fci_loop, h0]
        refine ih (a + 1) k r (Nat.lt_of_succ_lt_succ hk) (fun j hj => ?_) ?_
        · have h2 := hnone (j + 1) (Nat.succ_lt_succ hj)
          rw [show a + 1 + j = a + (j + 1) by omega]
          exact h2
        · rw [show a + 1 + k = a + (k + 1) by omega]
          exact hsome
  refine ⟨?_, ?_, ?_, ?_, ?_, ?_, ?_⟩
  · intro h
    exact herr MAX_RETRIES 0 (fun j hj => by simpa using h j hj)
  · intro k r hk hnone hsome
    exact hok MAX_RETRIES 0 k r hk (fun j hj => by simpa using hnone j hj)
      (by simpa using hsome)
  · intro recs; rfl
  · intro n i recs; rfl
  · intro lst ns rest h
    simp [scanRound, h]
  · intro lst ns rest recs i h hs
    simp [scanRound, h, hs]
  · intro lst ns rest recs h hs
    simp [scanRound, h, hs]

theorem c7_witness :
    find_container_id ["k8s.io"] "c" (fun _ _ => some [])
      = Except.error (containerErrMsg "c" ["k8s.io"])
    ∧ find_container_id ["k8s.io", "default"] "c"
        (fun _ _ => some [PsRec.malformed, PsRec.parsed "other" "i0",
          PsRec.parsed "c" "i1"])
      = Except.ok ("i1", "k8s.io") := by
  refine ⟨?_, ?_⟩
  · exact (c7_find_container_id ["k8s.io"] "c" (fun _ _ => some [])).1
      (fun j _ => rfl)
  · exact (c7_find_container_id ["k8s.io", "default"] "c"
      (fun _ _ => some [PsRec.malformed, PsRec.parsed "other" "i0",
        PsRec.parsed "c" "i1"])).2.1 0 ("i1", "k8s.io") (by decide)
      (fun j hj => absurd hj (Nat.not_lt_zero j)) (by decide)

/-- C8: the tool-verification step of TmuxSession construction never fails:
_require_in_container discards the result of `which prog`, so construction
proceeds even when the required binary is missing (exit code 1). This
contradicts the intent stated by the method name and the spec's
StartupError semantics. -/
theorem c8_tool_check_never_fails :
    (∀ (tmuxWhich asciinemaWhich : ExecResult) (disableRecording : Bool),
        require_in_container tmuxWhich = none
        ∧ init_tool_check tmuxWhich asciinemaWhich disableRecording = none)
    ∧ init_tool_check ⟨1, ""⟩ ⟨1, ""⟩ false = none := by
  refine ⟨fun a b c => ⟨rfl, ?_⟩, rfl⟩
  cases c <;> rfl

theorem tailIdx_le (keys : List String) : ∀ i, tailIdx keys i ≤ i := by
  intro i
  induction i with
  | zero => exact Nat.le_refl 0
  | succ i ih =>
    rw [tailIdx]
    by_cases h : ENTER_KEYS.contains (keys.getD i "")
    · rw [if_pos h]
      exact Nat.le_succ_of_le ih
    · rw [if_neg h]

theorem tailIdx_append (ks : List String) (k : String) :
    ∀ i, i ≤ ks.length → tailIdx (ks ++ [k]) i = tailIdx ks i := by
  intro i
  induction i with
  | zero => intro _; rfl
  | succ i ih =>
    intro hi
    have hget : (ks ++ [k]).getD i "" = ks.getD i "" := by
      rw [List.getD_eq_getElem?_getD, List.getD_eq_getElem?_getD,
        List.getElem?_append_left hi]
    rw [tailIdx, tailIdx, hget, ih (Nat.le_of_succ_le hi)]

theorem take_tailIdx_eq (ks : List String) :
    ks.take (tailIdx ks ks.length) = spec_strip_trailing_enters ks := by
  induction ks using List.reverseRecOn with
  | nil => rfl
  | append_singleton ks k ih =>
    have hlen : (ks ++ [k]).length = ks.length + 1 := by simp
    have hgetlast : (ks ++ [k]).getD ks.length "" = k := by
      rw [List.getD_eq_getElem?_getD, List.getElem?_concat_length]
      rfl
    have hrev : (ks ++ [k]).reverse = k :: ks.reverse := by
      rw [List.reverse_append]
      rfl
    rw [hlen]
    by_cases hk : ENTER_KEYS.contains k
    · have h1 : tailIdx (ks ++ [k]) (ks.length + 1) = tailIdx ks ks.length := by
        rw [tailIdx, hgetlast, if_pos hk]
        exact tailIdx_append ks k ks.length (Nat.le_refl _)
      have h2 : spec_strip_trailing_enters (ks ++ [k])
          = spec_strip_trailing_enters ks := by
        unfold spec_strip_trailing_enters
        rw [hrev]
        simp only [List.dropWhile_cons, hk]
        rfl
      rw [h1, h2, List.take_append_of_le_length (tailIdx_le ks ks.length), ih]
    · have h1 : tailIdx (ks ++ [k]) (ks.length + 1) = ks.length + 1 := by
        rw [tailIdx, hgetlast, if_neg hk]
      have h2 : spec_strip_trailing_enters (ks ++ [k]) = ks ++ [k] := by
        have hkf : ENTER_KEYS.contains k = false := by
          cases hcc : ENTER_KEYS.contains k
          · rfl
          · exact absurd hcc hk
        unfold spec_strip_trailing_enters
        rw [hrev]
        simp only [List.dropWhile_cons, hkf]
        rw [if_neg (by exact Bool.false_ne_true), List.reverse_cons,
          List.reverse_reverse]
      rw [h1, h2, ← hlen, List.take_length]

theorem dropLast_two_concat {α : Type} (l : List α) (a b : α) :
    (l ++ [a, b]).dropLast.dropLast = l := by
  have h : l ++ [a, b] = (l ++ [a]) ++ [b] := by simp
  rw [h, List.dropLast_concat, List.dropLast_concat]

/-- C3: with block=true the blocking path is taken iff the key list is
non-empty and ends in an Enter-equivalent; in that case all trailing
Enter-equivalents are stripped, the completion command plus exactly one
Enter are appended, and the dispatches are the command body (when
non-empty) followed by the sync tail; otherwise the keys are forwarded
unchanged in a single dispatch and no blocking wait occurs. -/
theorem c3_send_keys_blocking (keys : List String) (block : Bool) :
    (¬(block = true ∧ keys ≠ [] ∧ ENTER_KEYS.contains (keys.getLastD "") = true) →
        send_keys_dispatches keys block = ([keys], false)
        ∧ prepare_keys keys block = (keys, false))
    ∧ (block = true → keys ≠ [] →
        ENTER_KEYS.contains (keys.getLastD "") = true →
        prepare_keys keys block
          = (spec_strip_trailing_enters keys
              ++ [TMUX_COMPLETION_COMMAND, "Enter"], true)
        ∧ send_keys_dispatches keys block
          = ((if (spec_strip_trailing_enters keys).isEmpty then []
              else [spec_strip_trailing_enters keys])
              ++ [[TMUX_COMPLETION_COMMAND, "Enter"]], true)
        ∧ keys = spec_strip_trailing_enters keys
            ++ (keys.reverse.takeWhile (fun s => ENTER_KEYS.contains s)).reverse
        ∧ (∀ s ∈ (keys.reverse.takeWhile (fun s => ENTER_KEYS.contains s)).reverse,
            ENTER_KEYS.contains s = true)) := by
  constructor
  · intro hn
    have hcond :
        (!block || keys.isEmpty || !(ENTER_KEYS.contains (keys.getLastD "")))
          = true := by
      cases hb : block
      · rfl
      · cases hk : keys with
        | nil => rfl
        | cons a as =>
          have hc : ENTER_KEYS.contains (keys.getLastD "") = false := by
            cases hcc : ENTER_KEYS.contains (keys.getLastD "")
            · rfl
            · exact absurd ⟨hb, by rw [hk]; exact List.cons_ne_nil a as, hcc⟩ hn
          rw [← hk, hc]
          simp
    have hpk : prepare_keys keys block = (keys, false) := by
      unfold prepare_keys
      rw [if_pos hcond]
    exact ⟨by simp [send_keys_dispatches, hpk], hpk⟩
  · intro hb hk hc
    have hke : keys.isEmpty = false := by
      cases keys
      · exact absurd rfl hk
      · rfl
    have hcond :
        (!block || keys.isEmpty || !(ENTER_KEYS.contains (keys.getLastD "")))
          = false := by
      rw [hb, hke, hc]
      rfl
    have hpk : prepare_keys keys block
        = (spec_strip_trailing_enters keys
            ++ [TMUX_COMPLETION_COMMAND, "Enter"], true) := by
      unfold prepare_keys
      rw [if_neg (by rw [hcond]; exact Bool.false_ne_true), take_tailIdx_eq]
    refine ⟨hpk, ?_, ?_, ?_⟩
    · simp only [send_keys_dispatches, hpk]
      rw [dropLast_two_concat]
      simp
    · conv_lhs =>
        rw [← keys.reverse_reverse,
          ← List.takeWhile_append_dropWhile
            (p := fun s => ENTER_KEYS.contains s) (l := keys.reverse)]
      rw [List.reverse_append]
      rfl
    · intro s hs
      rw [List.mem_reverse] at hs
      exact List.mem_takeWhile_imp hs

theorem c3_counterexample :
    (send_keys_dispatches ["Enter"] true).2 = true
    ∧ (send_keys_dispatches ["Enter"] true).1
        = [[TMUX_COMPLETION_COMMAND, "Enter"]]
    ∧ (send_keys_dispatches ["Enter"] true).1.length = 1
    ∧ (send_keys_dispatches ["Enter"] true).1.length ≠ 2 := by
  refine ⟨rfl, rfl, rfl, by decide⟩

theorem c3_witness :
    prepare_keys ["echo hi", "Enter", "C-m"] true
      = (spec_strip_trailing_enters ["echo hi", "Enter", "C-m"]
          ++ [TMUX_COMPLETION_COMMAND, "Enter"], true)
    ∧ send_keys_dispatches ["echo hi", "Enter", "C-m"] true
      = ((if (spec_strip_trailing_enters ["echo hi", "Enter", "C-m"]).isEmpty
          then [] else [spec_strip_trailing_enters ["echo hi", "Enter", "C-m"]])
          ++ [[TMUX_COMPLETION_COMMAND, "Enter"]], true)
    ∧ send_keys_dispatches ["ls"] true = ([["ls"]], false) := by
  have h2 := (c3_send_keys_blocking ["echo hi", "Enter", "C-m"] true).2
    rfl (by decide) (by decide)
  refine ⟨h2.1, h2.2.1, ?_⟩
  exact ((c3_send_keys_blocking ["ls"] true).1 (by decide)).1

/-- C5: find_new_content strips the previous snapshot with Python strip()
(both ends); when the stripped snapshot occurs in the new capture it
returns the part after the end of the LAST occurrence, and when it does
not occur at all it returns none. -/
theorem c5_find_new_content_spec (prev current : List Char) :
    ((∀ j, j ≤ current.length →
        (pyStrip prev).isPrefixOf (current.drop j) = false) →
      find_new_content (some prev) current = none)
    ∧ (∀ m, m ≤ current.length →
        (pyStrip prev).isPrefixOf (current.drop m) = true →
        ∃ i, (pyStrip prev).isPrefixOf (current.drop i) = true
          ∧ (∀ j, j ≤ current.length →
              (pyStrip prev).isPrefixOf (current.drop j) = true → j ≤ i)
          ∧ find_new_content (some prev) current
              = some (current.drop (i + (pyStrip prev).length))) := by
  constructor
  · intro h
    cases hr : rfindAux (pyStrip prev) current current.length with
    | none => simp [find_new_content, rfindLast, hr]
    | some i =>
      obtain ⟨hp, hle⟩ := rfindAux_some hr
      have hf := h i hle
      rw [hf] at hp
      exact Bool.noConfusion hp
  · intro m hm hp
    obtain ⟨i, hi, _⟩ := rfindAux_of_match hm hp
    obtain ⟨hip, _⟩ := rfindAux_some hi
    exact ⟨i, hip, fun j hj hjp => rfindAux_max hi j hj hjp,
      by simp [find_new_content, rfindLast, hi]⟩

theorem c5_counterexample :
    find_new_content (some " abc".toList) "xabc def".toList
      = some " def".toList
    ∧ rstrip_find_new_content (some " abc".toList) "xabc def".toList = none := by
  exact ⟨by decide, by decide⟩

theorem c5_witness :
    ∃ i, (pyStrip " abc".toList).isPrefixOf ("xabc def".toList.drop i) = true
      ∧ (∀ j, j ≤ "xabc def".toList.length →
          (pyStrip " abc".toList).isPrefixOf ("xabc def".toList.drop j) = true →
          j ≤ i)
      ∧ find_new_content (some " abc".toList) "xabc def".toList
          = some ("xabc def".toList.drop (i + (pyStrip " abc".toList).length)) :=
  (c5_find_new_content_spec " abc".toList "xabc def".toList).2 1
    (by decide) (by decide)

/-- Diffing a capture against itself always yields a tail that is pure
whitespace: the stripped capture occurs at the end of the leading
whitespace, rfind returns an occurrence at least that far right, and
everything after it lies in the trailing whitespace. -/
theorem find_new_content_self (cur : List Char) :
    ∃ tl, find_new_content (some cur) cur = some tl ∧ pyStrip tl = [] := by
  have hL : (cur.takeWhile pyWS).length ≤ cur.length :=
    (List.takeWhile_sublist pyWS).length_le
  have hdecomp : cur.drop (cur.takeWhile pyWS).length
      = pyStrip cur ++ wsTail (pyStripLeft cur) := by
    rw [← pyStripLeft_eq_drop]
    exact pyStripRight_append_wsTail (pyStripLeft cur)
  have hmatch :
      (pyStrip cur).isPrefixOf (cur.drop (cur.takeWhile pyWS).length) = true := by
    rw [hdecomp]
    exact isPrefixOf_append_self _ _
  obtain ⟨i, hi, hLi⟩ := rfindAux_of_match hL hmatch
  refine ⟨cur.drop (i + (pyStrip cur).length),
    by simp [find_new_content, rfindLast, hi], ?_⟩
  apply pyStrip_of_all_ws
  intro c hc
  have hsplit : cur = (cur.take (cur.takeWhile pyWS).length ++ pyStrip cur)
      ++ wsTail (pyStripLeft cur) := by
    rw [List.append_assoc, ← hdecomp, List.take_append_drop]
  have hlen2 : (cur.take (cur.takeWhile pyWS).length ++ pyStrip cur).length
      = (cur.takeWhile pyWS).length + (pyStrip cur).length := by
    rw [List.length_append, List.length_take]
    congr 1
    exact Nat.min_eq_left hL
  have hdrop := drop_append_len (cur.take (cur.takeWhile pyWS).length ++ pyStrip cur)
    (wsTail (pyStripLeft cur)) (i - (cur.takeWhile pyWS).length)
  rw [hlen2, show (cur.takeWhile pyWS).length + (pyStrip cur).length
        + (i - (cur.takeWhile pyWS).length) = i + (pyStrip cur).length by omega,
    ← hsplit] at hdrop
  rw [hdrop] at hc
  exact mem_wsTail_ws (List.mem_of_mem_drop hc)

/-- C6: the first get_incremental_output call returns the current-screen
framing and stores the capture; later calls return the new-output framing
exactly when the diff tail is non-blank, and otherwise (blank tail, or
previous snapshot not found) fall back to the current-screen framing; in
particular two consecutive calls over an unchanged capture both return
the current-screen framing. -/
theorem c6_get_incremental_output_spec :
    (∀ current visibleScreen : List Char,
        get_incremental_output none current visibleScreen
          = (TermOutput.currentScreen visibleScreen, some current))
    ∧ (∀ (prev current visibleScreen c : List Char),
        find_new_content (some prev) current = some c → pyStrip c ≠ [] →
        get_incremental_output (some prev) current visibleScreen
          = (TermOutput.newOutput c, some current))
    ∧ (∀ (prev current visibleScreen : List Char),
        (∀ c, find_new_content (some prev) current = some c → pyStrip c = []) →
        get_incremental_output (some prev) current visibleScreen
          = (TermOutput.currentScreen visibleScreen, some current))
    ∧ (∀ current v1 v2 : List Char,
        (get_incremental_output (some current) current v1).1
          = TermOutput.currentScreen v1
        ∧ (get_incremental_output
            ((get_incremental_output (some current) current v1).2) current v2).1
          = TermOutput.currentScreen v2) := by
  have hblank : ∀ (prev current visibleScreen : List Char),
      (∀ c, find_new_content (some prev) current = some c → pyStrip c = []) →
      get_incremental_output (some prev) current visibleScreen
        = (TermOutput.currentScreen visibleScreen, some current) := by
    intro prev current vis h
    cases hf : find_new_content (some prev) current with
    | none => simp [get_incremental_output, hf]
    | some c =>
      have hsc : pyStrip c = [] := h c hf
      have hcond : (!c.isEmpty && !(pyStrip c).isEmpty) = false := by
        rw [hsc]
        simp
      simp [get_incremental_output, hf, hcond]
  have hquiet : ∀ (current vis : List Char),
      get_incremental_output (some current) current vis
        = (TermOutput.currentScreen vis, some current) := by
    intro current vis
    obtain ⟨tl, htl, hstl⟩ := find_new_content_self current
    refine hblank current current vis (fun c hc => ?_)
    rw [htl] at hc
    injection hc with h2
    rw [← h2]
    exact hstl
  refine ⟨fun c v => rfl, ?_, hblank, ?_⟩
  · intro prev current vis c hf hne
    have hcne : c ≠ [] := by
      intro hce
      rw [hce] at hne
      exact hne rfl
    have h1 : c.isEmpty = false := by
      cases c
      · exact absurd rfl hcne
      · rfl
    have h2 : (pyStrip c).isEmpty = false := by
      cases hp : pyStrip c
      · exact absurd hp hne
      · rfl
    have hcond : (!c.isEmpty && !(pyStrip c).isEmpty) = true := by
      rw [h1, h2]
      rfl
    simp [get_incremental_output, hf, hcond]
  · intro current v1 v2
    constructor
    · rw [hquiet current v1]
    · rw [hquiet current v1]
      dsimp only
      rw [hquiet current v2]

theorem c6_counterexample :
    find_new_content (some ['a']) ['a', ' '] = some [' ']
    ∧ ([' '] : List Char) ≠ []
    ∧ (get_incremental_output (some ['a']) ['a', ' '] []).1
        = TermOutput.currentScreen []
    ∧ (get_incremental_output (some ['a']) ['a', ' '] []).1
        ≠ TermOutput.newOutput [' '] := by
  exact ⟨by decide, by decide, by decide, by decide⟩

theorem c6_witness :
    get_incremental_output (some ['a']) ['a', 'b'] []
      = (TermOutput.newOutput ['b'], some ['a', 'b'])
    ∧ (get_incremental_output (some ['a', 'b']) ['a', 'b'] ['v']).1
      = TermOutput.currentScreen ['v']
    ∧ (get_incremental_output
        ((get_incremental_output (some ['a', 'b']) ['a', 'b'] ['v']).2)
        ['a', 'b'] ['w']).1 = TermOutput.currentScreen ['w'] :=
  ⟨c6_get_incremental_output_spec.2.1 ['a'] ['a', 'b'] [] ['b']
      (by decide) (by decide),
    (c6_get_incremental_output_spec.2.2.2 ['a', 'b'] ['v'] ['w']).1,
    (c6_get_incremental_output_spec.2.2.2 ['a', 'b'] ['v'] ['w']).2⟩

end AEnv
